import Mathlib

/-!
Shallow embedding of the `markov` module of `markovtextgen-rs`
(`src/src/lib.rs`): a second-order Markov chain text generator.

Modelling conventions:
- Rust `String` is Lean `String`; a regex filter `re` is modelled by the
  function `s ↦ re.replace_all(s, "")` of type `String → String`
  (the claims only depend on the order in which filters are applied,
  not on regex semantics).
- The global random source (`rand::random::<usize>()`) is modelled by an
  explicit stream `rng : Nat → Nat` giving the value of the k-th draw;
  `generate` consumes draw 0 for the seed pick and draw i+1 at loop
  iteration i.
- `i32` values are modelled as `Int`; the cast `(v : i32) as usize` is
  two's-complement reinterpretation modulo 2^64.
- Vector indexing `v[i]` is modelled with `List.getD` (all indexing in the
  source happens at in-bounds positions along every execution path that
  the theorems describe).
-/

/-- A chain entry `(String, String, Vec<String>)`: a two-token context and
the list of observed successor tokens. -/
abbrev ChainEntry := String × String × List String

/-- The `LetterCase` enum of the source: force upper, force lower, or leave
casing alone. -/
inductive LetterCase where
  | Upper
  | Lower
  | Any
deriving DecidableEq

/-- The `Markov` struct: seed contexts, chain entries, casing policy,
ordered filter list and optional transform function. -/
structure Markov where
  seeds : List (String × String)
  chains : List ChainEntry
  casing : LetterCase
  filters : List (String → String)
  transform : Option (String → String)

/-- `markov::new()`: the empty model (no seeds, no chains, casing `Any`,
no filters, no transform). -/
def Markov.new : Markov :=
  { seeds := [], chains := [], casing := LetterCase.Any,
    filters := [], transform := none }

/-- `Markov::add_filter`: push a filter at the end of the filter list. -/
def Markov.add_filter (m : Markov) (f : String → String) : Markov :=
  { m with filters := m.filters ++ [f] }

/-- Helper for `words`: collect maximal runs of non-whitespace characters.
`acc` holds the (reversed) characters of the current run. -/
def wordsAux : List Char → List Char → List String
  | [], [] => []
  | [], acc => [String.mk acc.reverse]
  | c :: cs, acc =>
    if c.isWhitespace then
      match acc with
      | [] => wordsAux cs []
      | _ => String.mk acc.reverse :: wordsAux cs []
    else
      wordsAux cs (c :: acc)

/-- `words(sentence)`: `sentence.split_whitespace().collect()` — split on
runs of whitespace (space, tab, newline, carriage return), discarding
empty segments. -/
def words (sentence : String) : List String :=
  wordsAux sentence.data []

/-- The filter pass of `pass_str`: for each filter in registration order,
replace every word by its filtered form (outer loop over filters, inner
loop over words, exactly as in the source). -/
def applyFilters (filters : List (String → String)) (ws : List String) :
    List String :=
  filters.foldl (fun acc f => acc.map f) ws

/-- The transform pass of `pass_str`: if a transform is configured, apply
it to every word. -/
def applyTransform (t : Option (String → String)) (ws : List String) :
    List String :=
  match t with
  | some f => ws.map f
  | none => ws

/-- The casing pass of `pass_str`: lower-case every word, upper-case every
word, or do nothing. -/
def applyCase (c : LetterCase) (ws : List String) : List String :=
  match c with
  | LetterCase.Lower => ws.map String.toLower
  | LetterCase.Upper => ws.map String.toUpper
  | LetterCase.Any => ws

/-- The normalization pipeline of `pass_str` on a word list: filters (in
registration order), then the optional transform, then the casing pass. -/
def normalizeWords (filters : List (String → String))
    (t : Option (String → String)) (c : LetterCase) (ws : List String) :
    List String :=
  applyCase c (applyTransform t (applyFilters filters ws))

/-- The full normalization `pass_str` performs on its input sentence:
tokenize, then run the normalization pipeline with the model's
configuration. -/
def Markov.normalize (m : Markov) (sentence : String) : List String :=
  normalizeWords m.filters m.transform m.casing (words sentence)

/-- `Markov::has_chain`: linear scan for an entry whose context is
`(s1, s2)`, returning on the first match. -/
def has_chain : List ChainEntry → String → String → Bool
  | [], _, _ => false
  | c :: cs, s1, s2 =>
    if c.1 = s1 ∧ c.2.1 = s2 then true else has_chain cs s1 s2

/-- `Markov::add_to_chain`: push `w` onto the successor list of every
entry whose context is `(s1, s2)` (the source loop has no early exit). -/
def add_to_chain (chains : List ChainEntry) (s1 s2 w : String) :
    List ChainEntry :=
  chains.map fun c =>
    if c.1 = s1 ∧ c.2.1 = s2 then (c.1, c.2.1, c.2.2 ++ [w]) else c

/-- `Markov::add`: append the successor to the existing entry for the
context if one exists, otherwise push a fresh entry with a one-element
successor list. -/
def add (chains : List ChainEntry) (s1 s2 w : String) : List ChainEntry :=
  if has_chain chains s1 s2 then add_to_chain chains s1 s2 w
  else chains ++ [(s1, s2, [w])]

/-- `Markov::pass_str`: normalize the sentence; with fewer than two tokens
return `false` and leave the model unchanged, otherwise push the seed
`(words[0], words[1])`, run `add` for every index `i` in
`0..words.len()-2`, and return `true`. -/
def Markov.pass_str (m : Markov) (sentence : String) : Markov × Bool :=
  let ws := m.normalize sentence
  if ws.length < 2 then (m, false)
  else
    ({ m with
        seeds := m.seeds ++ [(ws.getD 0 "", ws.getD 1 "")],
        chains := (List.range (ws.length - 2)).foldl
          (fun ch i =>
            add ch (ws.getD i "") (ws.getD (i + 1) "") (ws.getD (i + 2) ""))
          m.chains },
      true)

/-- `Markov::pass`: ingest a list of sentences in order, discarding the
per-sentence results. -/
def Markov.pass (m : Markov) (sentences : List String) : Markov :=
  sentences.foldl (fun m s => (m.pass_str s).1) m

/-- Scan of `Markov::next`: find the first entry whose context is
`(s1, s2)` and return its successor at index `r % len`; `r` is the value
drawn from the random source at that point. -/
def nextAux : List ChainEntry → String → String → Nat → Option String
  | [], _, _, _ => none
  | c :: cs, s1, s2, r =>
    if c.1 = s1 ∧ c.2.1 = s2 then some (c.2.2.getD (r % c.2.2.length) "")
    else nextAux cs s1 s2 r

/-- `Markov::next` on a model. -/
def Markov.next (m : Markov) (s1 s2 : String) (r : Nat) : Option String :=
  nextAux m.chains s1 s2 r

/-- Two's-complement reinterpretation of an `i32` value as a `usize`
(64-bit): the value modulo 2^64. -/
def i32AsUsize (v : Int) : Nat := (v % (2 : Int) ^ 64).toNat

/-- The generation loop of `Markov::generate`: at iteration with word
index `i` (the list so far being `ws`, of length `i + 2`), look up the
context `(words[i], words[i+1])` with random draw `rng (i+1)`; push the
result and continue, or stop at the first miss. -/
def genLoop (m : Markov) (rng : Nat → Nat) :
    Nat → Nat → List String → List String
  | 0, _, ws => ws
  | fuel + 1, i, ws =>
    match m.next (ws.getD i "") (ws.getD (i + 1) "") (rng (i + 1)) with
    | some s => genLoop m rng fuel (i + 1) (ws ++ [s])
    | none => ws

/-- The word list built by `Markov::generate` before joining: the randomly
chosen seed pair followed by the loop, whose iteration count is
`(length - 2) as usize`. -/
def Markov.generateWords (m : Markov) (length : Int) (rng : Nat → Nat) :
    List String :=
  let x := m.seeds.getD (rng 0 % m.seeds.length) ("", "")
  genLoop m rng (i32AsUsize (length - 2)) 0 [x.1, x.2]

/-- `Markov::generate`: `None` when there are no seeds, otherwise the
space-join of the generated word list. -/
def Markov.generate (m : Markov) (length : Int) (rng : Nat → Nat) :
    Option String :=
  if m.seeds.length = 0 then none
  else some (String.intercalate " " (m.generateWords length rng))

/-- Models reachable from `markov::new()` by the library's public
mutations: ingestion (`pass_str`), adding filters, and setting the casing
policy or transform at configuration time. -/
inductive Reachable : Markov → Prop
  | new : Reachable Markov.new
  | pass_str (m : Markov) (s : String) :
      Reachable m → Reachable (m.pass_str s).1
  | add_filter (m : Markov) (f : String → String) :
      Reachable m → Reachable (m.add_filter f)
  | set_casing (m : Markov) (c : LetterCase) :
      Reachable m → Reachable { m with casing := c }
  | set_transform (m : Markov) (t : Option (String → String)) :
      Reachable m → Reachable { m with transform := t }

/-- Modelled from the spec's words (refinement target for claim C8, to be
compared with the source-derived pipeline `normalizeWords`): per-token
normalization — every configured pattern-removal rule in registration
order, each later rule seeing the already-filtered token, then the
optional custom transform, then the casing policy. -/
def normalizeTokenSpec (filters : List (String → String))
    (t : Option (String → String)) (c : LetterCase) (w : String) : String :=
  let filtered := filters.foldl (fun w f => f w) w
  let transformed := match t with | some f => f filtered | none => filtered
  match c with
  | LetterCase.Lower => transformed.toLower
  | LetterCase.Upper => transformed.toUpper
  | LetterCase.Any => transformed

/-- Modelled from the spec's words (refinement target for claim C6, to be
compared with the source-derived `genLoop`): identical loop, except that
the lookup context is written as the pair of the two most recently
appended output tokens, oldest to newest. -/
def genLoopSpec (m : Markov) (rng : Nat → Nat) :
    Nat → Nat → List String → List String
  | 0, _, ws => ws
  | fuel + 1, i, ws =>
    match m.next (ws.getD (ws.length - 2) "") (ws.getD (ws.length - 1) "")
        (rng (i + 1)) with
    | some s => genLoopSpec m rng fuel (i + 1) (ws ++ [s])
    | none => ws

/-- The model obtained by ingesting the single sentence "A B C D" into the
empty model (no filters, no transform, casing unchanged). -/
def mABCD : Markov := (Markov.new.pass_str "A B C D").1

/-- The model obtained by ingesting the single sentence "A B" into the
empty model. -/
def mAB : Markov := (Markov.new.pass_str "A B").1

/-- The context (ordered token pair) of each chain entry, in table order. -/
def ctxs (chains : List ChainEntry) : List (String × String) :=
  chains.map fun c => (c.1, c.2.1)

/-- The successor list stored for context `(a, b)`: the list held by the
first matching chain entry (the entry `Markov::next` reads), or `[]` when
no entry exists. -/
def succList : List ChainEntry → String → String → List String
  | [], _, _ => []
  | c :: cs, a, b => if c.1 = a ∧ c.2.1 = b then c.2.2 else succList cs a b

theorem genLoop_zero (m : Markov) (rng : Nat → Nat) (i : Nat) (ws : List String) :
    genLoop m rng 0 i ws = ws := rfl

theorem genLoop_succ (m : Markov) (rng : Nat → Nat) (fuel i : Nat) (ws : List String) :
    genLoop m rng (fuel + 1) i ws =
      match m.next (ws.getD i "") (ws.getD (i + 1) "") (rng (i + 1)) with
      | some s => genLoop m rng fuel (i + 1) (ws ++ [s])
      | none => ws := rfl

theorem genLoop_length_le (m : Markov) (rng : Nat → Nat) :
    ∀ (fuel i : Nat) (ws : List String),
      (genLoop m rng fuel i ws).length ≤ ws.length + fuel := by
  intro fuel
  induction fuel with
  | zero => intro i ws; simp [genLoop]
  | succ n ih =>
    intro i ws
    rw [genLoop_succ]
    split
    · rename_i s hs
      have := ih (i + 1) (ws ++ [s])
      simp only [List.length_append, List.length_cons, List.length_nil] at this ⊢
      omega
    · omega

theorem genLoop_length_ge (m : Markov) (rng : Nat → Nat) :
    ∀ (fuel i : Nat) (ws : List String),
      ws.length ≤ (genLoop m rng fuel i ws).length := by
  intro fuel
  induction fuel with
  | zero => intro i ws; simp [genLoop]
  | succ n ih =>
    intro i ws
    rw [genLoop_succ]
    split
    · rename_i s hs
      have := ih (i + 1) (ws ++ [s])
      simp only [List.length_append, List.length_cons, List.length_nil] at this
      omega
    · omega

theorem mABCD_next_AB (r : Nat) : mABCD.next "A" "B" r = some "C" := by
  show some ((["C"]).getD (r % 1) "") = some "C"
  rw [Nat.mod_one]
  rfl

theorem mABCD_next_BC (r : Nat) : mABCD.next "B" "C" r = some "D" := by
  show some ((["D"]).getD (r % 1) "") = some "D"
  rw [Nat.mod_one]
  rfl

theorem mABCD_next_CD (r : Nat) : mABCD.next "C" "D" r = none := rfl

theorem mAB_next (s1 s2 : String) (r : Nat) : mAB.next s1 s2 r = none := rfl

theorem mABCD_seeds : mABCD.seeds = [("A", "B")] := rfl

theorem mABCD_chains : mABCD.chains = [("A", "B", ["C"]), ("B", "C", ["D"])] := rfl

theorem applyFilters_eq_map (filters : List (String → String)) (ws : List String) :
    applyFilters filters ws = ws.map fun w => filters.foldl (fun w f => f w) w := by
  induction filters generalizing ws with
  | nil => simp [applyFilters]
  | cons f fs ih =>
    show applyFilters fs (ws.map f) = _
    rw [ih]
    simp [List.map_map, Function.comp]

theorem genLoopSpec_succ (m : Markov) (rng : Nat → Nat) (fuel i : Nat) (ws : List String) :
    genLoopSpec m rng (fuel + 1) i ws =
      match m.next (ws.getD (ws.length - 2) "") (ws.getD (ws.length - 1) "")
          (rng (i + 1)) with
      | some s => genLoopSpec m rng fuel (i + 1) (ws ++ [s])
      | none => ws := rfl

theorem has_chain_iff (ch : List ChainEntry) (a b : String) :
    has_chain ch a b = true ↔ (a, b) ∈ ctxs ch := by
  induction ch with
  | nil => simp [has_chain, ctxs]
  | cons c cs ih =>
    by_cases h : c.1 = a ∧ c.2.1 = b
    · simp only [has_chain, if_pos h, ctxs, List.map_cons, List.mem_cons]
      constructor
      · intro _; exact Or.inl (by rw [h.1, h.2])
      · intro _; trivial
    · simp only [has_chain, if_neg h, ctxs, List.map_cons, List.mem_cons]
      rw [ih]
      constructor
      · intro hm; exact Or.inr ((by simpa [ctxs] using hm))
      · rintro (heq | hm)
        · exact absurd ⟨congrArg Prod.fst heq |>.symm, congrArg Prod.snd heq |>.symm⟩ h
        · simpa [ctxs] using hm

theorem succList_eq_nil_of_no_chain (ch : List ChainEntry) (a b : String)
    (h : has_chain ch a b = false) : succList ch a b = [] := by
  induction ch with
  | nil => rfl
  | cons c cs ih =>
    by_cases hc : c.1 = a ∧ c.2.1 = b
    · simp [has_chain, hc] at h
    · simp only [succList, if_neg hc]
      exact ih (by simpa [has_chain, hc] using h)

theorem ctxs_add_to_chain (ch : List ChainEntry) (a b w : String) :
    ctxs (add_to_chain ch a b w) = ctxs ch := by
  induction ch with
  | nil => rfl
  | cons c cs ih =>
    by_cases hc : c.1 = a ∧ c.2.1 = b
    · simp only [add_to_chain, List.map_cons, if_pos hc, ctxs] at ih ⊢
      rw [ih]
    · simp only [add_to_chain, List.map_cons, if_neg hc, ctxs] at ih ⊢
      rw [ih]

theorem succList_add_to_chain_self (ch : List ChainEntry) (a b w : String)
    (h : has_chain ch a b = true) :
    succList (add_to_chain ch a b w) a b = succList ch a b ++ [w] := by
  induction ch with
  | nil => simp [has_chain] at h
  | cons c cs ih =>
    by_cases hc : c.1 = a ∧ c.2.1 = b
    · simp only [add_to_chain, List.map_cons, if_pos hc, succList]
    · simp only [add_to_chain, List.map_cons, if_neg hc, succList]
      have h' : has_chain cs a b = true := by simpa [has_chain, hc] using h
      exact ih h'

theorem succList_add_to_chain_other (ch : List ChainEntry) (a' b' w a b : String)
    (h : ¬(a' = a ∧ b' = b)) :
    succList (add_to_chain ch a' b' w) a b = succList ch a b := by
  induction ch with
  | nil => rfl
  | cons c cs ih =>
    by_cases hc : c.1 = a' ∧ c.2.1 = b'
    · simp only [add_to_chain, List.map_cons, if_pos hc, succList]
      have hne : ¬(c.1 = a ∧ c.2.1 = b) := by
        intro hcab
        exact h ⟨hc.1 ▸ hcab.1, hc.2 ▸ hcab.2⟩
      rw [if_neg hne, if_neg hne]
      exact ih
    · simp only [add_to_chain, List.map_cons, if_neg hc, succList]
      by_cases hcab : c.1 = a ∧ c.2.1 = b
      · rw [if_pos hcab, if_pos hcab]
      · rw [if_neg hcab, if_neg hcab]
        exact ih

theorem succList_append_left (ch ch2 : List ChainEntry) (a b : String)
    (h : has_chain ch a b = true) :
    succList (ch ++ ch2) a b = succList ch a b := by
  induction ch with
  | nil => simp [has_chain] at h
  | cons c cs ih =>
    by_cases hc : c.1 = a ∧ c.2.1 = b
    · simp only [List.cons_append, succList, if_pos hc]
    · simp only [List.cons_append, succList, if_neg hc]
      exact ih (by simpa [has_chain, hc] using h)

theorem succList_append_right (ch ch2 : List ChainEntry) (a b : String)
    (h : has_chain ch a b = false) :
    succList (ch ++ ch2) a b = succList ch2 a b := by
  induction ch with
  | nil => rfl
  | cons c cs ih =>
    by_cases hc : c.1 = a ∧ c.2.1 = b
    · simp [has_chain, hc] at h
    · simp only [List.cons_append, succList, if_neg hc]
      exact ih (by simpa [has_chain, hc] using h)

theorem succList_add (ch : List ChainEntry) (a' b' w a b : String) :
    succList (add ch a' b' w) a b =
      succList ch a b ++ (if a' = a ∧ b' = b then [w] else []) := by
  by_cases hm : a' = a ∧ b' = b
  · obtain ⟨rfl, rfl⟩ := hm
    rw [if_pos ⟨rfl, rfl⟩]
    unfold add
    by_cases hc : has_chain ch a' b' = true
    · rw [if_pos hc]
      exact succList_add_to_chain_self ch a' b' w hc
    · have hf : has_chain ch a' b' = false := by simpa using hc
      rw [if_neg (by simp [hf]), succList_append_right ch _ a' b' hf,
        succList_eq_nil_of_no_chain ch a' b' hf]
      simp [succList]
  · rw [if_neg hm]
    unfold add
    by_cases hc : has_chain ch a' b' = true
    · rw [if_pos hc, List.append_nil]
      exact succList_add_to_chain_other ch a' b' w a b hm
    · have hf : has_chain ch a' b' = false := by simpa using hc
      rw [if_neg (by simp [hf]), List.append_nil]
      by_cases hab : has_chain ch a b = true
      · exact succList_append_left ch _ a b hab
      · have hfab : has_chain ch a b = false := by simpa using hab
        rw [succList_append_right ch _ a b hfab,
          succList_eq_nil_of_no_chain ch a b hfab]
        simp [succList, hm]

theorem succList_foldl_add (ts : List (String × String × String))
    (ch : List ChainEntry) (a b : String) :
    succList (ts.foldl (fun ch t => add ch t.1 t.2.1 t.2.2) ch) a b =
      succList ch a b ++
        ts.filterMap fun t =>
          if t.1 = a ∧ t.2.1 = b then some t.2.2 else none := by
  induction ts generalizing ch with
  | nil => simp
  | cons t ts ih =>
    rw [List.foldl_cons, ih, succList_add, List.filterMap_cons]
    by_cases h : t.1 = a ∧ t.2.1 = b
    · rw [if_pos h, if_pos h]
      simp
    · rw [if_neg h, if_neg h]
      simp

theorem foldl_range_add (ws : List String) (n : Nat) (ch : List ChainEntry) :
    (List.range n).foldl
        (fun ch i =>
          add ch (ws.getD i "") (ws.getD (i + 1) "") (ws.getD (i + 2) "")) ch =
      ((List.range n).map fun i =>
          (ws.getD i "", ws.getD (i + 1) "", ws.getD (i + 2) "")).foldl
        (fun ch t => add ch t.1 t.2.1 t.2.2) ch := by
  rw [List.foldl_map]

theorem ctxs_append (ch ch2 : List ChainEntry) :
    ctxs (ch ++ ch2) = ctxs ch ++ ctxs ch2 := by
  simp [ctxs]

theorem nodup_ctxs_add (ch : List ChainEntry) (a b w : String)
    (h : (ctxs ch).Nodup) : (ctxs (add ch a b w)).Nodup := by
  unfold add
  by_cases hc : has_chain ch a b = true
  · rw [if_pos (by simp [hc]), ctxs_add_to_chain]
    exact h
  · have hf : has_chain ch a b = false := by simpa using hc
    rw [if_neg (by simp [hf]), ctxs_append]
    rw [List.nodup_append]
    refine ⟨h, by simp [ctxs], ?_⟩
    intro x hx hx2
    have : x = (a, b) := by simpa [ctxs] using hx2
    subst this
    exact hc ((has_chain_iff ch a b).mpr hx)

theorem nodup_ctxs_foldl (ts : List (String × String × String))
    (ch : List ChainEntry) (h : (ctxs ch).Nodup) :
    (ctxs (ts.foldl (fun ch t => add ch t.1 t.2.1 t.2.2) ch)).Nodup := by
  induction ts generalizing ch with
  | nil => simpa
  | cons t ts ih => exact ih _ (nodup_ctxs_add _ _ _ _ h)

theorem nonempty_succ_add (ch : List ChainEntry) (a b w : String)
    (h : ∀ c ∈ ch, c.2.2 ≠ []) : ∀ c ∈ add ch a b w, c.2.2 ≠ [] := by
  unfold add
  by_cases hc : has_chain ch a b = true
  · rw [if_pos (by simp [hc])]
    intro c hcmem
    rw [add_to_chain, List.mem_map] at hcmem
    obtain ⟨c0, hc0, rfl⟩ := hcmem
    by_cases hm : c0.1 = a ∧ c0.2.1 = b
    · simp only [if_pos hm]
      simp
    · simp only [if_neg hm]
      exact h c0 hc0
  · rw [if_neg (by simp [hc] : ¬(has_chain ch a b = true))]
    intro c hcmem
    rw [List.mem_append] at hcmem
    rcases hcmem with h1 | h1
    · exact h c h1
    · have : c = (a, b, [w]) := by simpa using h1
      subst this
      simp

theorem nonempty_succ_foldl (ts : List (String × String × String))
    (ch : List ChainEntry) (h : ∀ c ∈ ch, c.2.2 ≠ []) :
    ∀ c ∈ ts.foldl (fun ch t => add ch t.1 t.2.1 t.2.2) ch, c.2.2 ≠ [] := by
  induction ts generalizing ch with
  | nil => exact h
  | cons t ts ih => exact ih _ (nonempty_succ_add _ _ _ _ h)

theorem pass_str_chains_shape (m : Markov) (s : String) :
    (m.pass_str s).1.chains = m.chains ∨
      (m.pass_str s).1.chains =
        ((List.range ((m.normalize s).length - 2)).map fun i =>
            ((m.normalize s).getD i "", (m.normalize s).getD (i + 1) "",
              (m.normalize s).getD (i + 2) "")).foldl
          (fun ch t => add ch t.1 t.2.1 t.2.2) m.chains := by
  simp only [Markov.pass_str]
  by_cases hlen : (m.normalize s).length < 2
  · rw [if_pos hlen]
    exact Or.inl rfl
  · rw [if_neg hlen]
    exact Or.inr (foldl_range_add _ _ _)

theorem reachable_nodup_ctxs (m : Markov) (h : Reachable m) :
    (ctxs m.chains).Nodup := by
  induction h with
  | new => simp [Markov.new, ctxs]
  | pass_str m s hm ih =>
    rcases pass_str_chains_shape m s with hsh | hsh
    · rw [hsh]; exact ih
    · rw [hsh]; exact nodup_ctxs_foldl _ _ ih
  | add_filter m f hm ih => exact ih
  | set_casing m c hm ih => exact ih
  | set_transform m t hm ih => exact ih

theorem reachable_chains_nonempty (m : Markov) (h : Reachable m) :
    ∀ c ∈ m.chains, c.2.2 ≠ [] := by
  induction h with
  | new => simp [Markov.new]
  | pass_str m s hm ih =>
    rcases pass_str_chains_shape m s with hsh | hsh
    · rw [hsh]; exact ih
    · rw [hsh]; exact nonempty_succ_foldl _ _ ih
  | add_filter m f hm ih => exact ih
  | set_casing m c hm ih => exact ih
  | set_transform m t hm ih => exact ih

theorem filter_ctx_eq_nil_of_not_mem (cs : List ChainEntry) (a b : String)
    (h : (a, b) ∉ ctxs cs) :
    cs.filter (fun c => decide (c.1 = a ∧ c.2.1 = b)) = [] := by
  induction cs with
  | nil => rfl
  | cons c cs ih =>
    simp only [ctxs, List.map_cons, List.mem_cons, not_or] at h
    rw [List.filter_cons]
    have hne : ¬(c.1 = a ∧ c.2.1 = b) := by
      intro hc
      exact h.1 (by rw [hc.1, hc.2])
    rw [if_neg (by simpa using hne)]
    exact ih (by simpa [ctxs] using h.2)

theorem length_filter_ctx_le_one (ch : List ChainEntry) (a b : String)
    (h : (ctxs ch).Nodup) :
    (ch.filter fun c => decide (c.1 = a ∧ c.2.1 = b)).length ≤ 1 := by
  induction ch with
  | nil => simp
  | cons c cs ih =>
    simp only [ctxs, List.map_cons, List.nodup_cons] at h
    rw [List.filter_cons]
    by_cases hc : c.1 = a ∧ c.2.1 = b
    · rw [if_pos (by simpa using hc)]
      have : (a, b) ∉ ctxs cs := by
        rw [← hc.1, ← hc.2]
        exact h.1
      rw [filter_ctx_eq_nil_of_not_mem cs a b this]
      simp
    · rw [if_neg (by simpa using hc)]
      exact ih h.2

/-- Claim C7: `generate` returns none if and only if the seed collection
is empty; for a model with at least one seed it always returns some
string (early loop termination included). -/
theorem Markov.generate_none_iff_no_seeds (m : Markov) (len : Int) (rng : Nat → Nat) :
    m.generate len rng = none ↔ m.seeds = [] := by
  constructor
  · intro h
    by_cases hs : m.seeds.length = 0
    · exact List.length_eq_zero.mp hs
    · simp [Markov.generate, hs] at h
  · intro h
    simp [Markov.generate, h]

/-- Claim C3: for every sentence whose normalized token sequence has
fewer than 2 tokens, `pass_str` returns false and leaves the model
unchanged — the seed collection and the chain table are exactly as
before, with no partial mutation. -/
theorem Markov.pass_str_short_noop (m : Markov) (s : String)
    (h : (m.normalize s).length < 2) :
    (m.pass_str s).2 = false ∧ (m.pass_str s).1.seeds = m.seeds ∧
      (m.pass_str s).1.chains = m.chains := by
  simp only [Markov.pass_str]
  rw [if_pos h]
  exact ⟨rfl, rfl, rfl⟩

/-- Witness for claim C3's theorem at the one-token sentence "hello". -/
theorem Markov.pass_str_short_noop_witness :
    (Markov.new.normalize "hello").length < 2 ∧
      ((Markov.new.pass_str "hello").2 = false ∧
        (Markov.new.pass_str "hello").1.seeds = Markov.new.seeds ∧
        (Markov.new.pass_str "hello").1.chains = Markov.new.chains) :=
  ⟨by decide, Markov.pass_str_short_noop Markov.new "hello" (by decide)⟩

/-- Claim C8: normalization applies to each token, in this fixed order:
every configured pattern-removal rule in registration order (later rules
seeing the already-filtered token), then the optional custom transform,
then the casing policy — the source's three word-list passes equal the
per-token pipeline mapped over the tokens. -/
theorem normalizeWords_pipeline_order (filters : List (String → String))
    (t : Option (String → String)) (c : LetterCase) (ws : List String) :
    normalizeWords filters t c ws = ws.map (normalizeTokenSpec filters t c) := by
  unfold normalizeWords normalizeTokenSpec applyTransform applyCase
  rw [applyFilters_eq_map]
  cases t <;> cases c <;> simp [List.map_map, Function.comp]

/-- Claim C6: at every iteration of the generation loop, the context
passed to the successor lookup is exactly the pair of the two most
recently appended output tokens in oldest-to-newest order: whenever the
output list has length `i + 2`, the source loop `genLoop` (which looks up
`(words[i], words[i+1])`) coincides with `genLoopSpec`, which looks up
the last two appended tokens. -/
theorem genLoop_uses_last_two_tokens (m : Markov) (rng : Nat → Nat)
    (fuel i : Nat) (ws : List String) (h : ws.length = i + 2) :
    genLoop m rng fuel i ws = genLoopSpec m rng fuel i ws := by
  induction fuel generalizing i ws with
  | zero => rfl
  | succ n ih =>
    rw [genLoop_succ, genLoopSpec_succ]
    have h2 : ws.length - 2 = i := by omega
    have h1 : ws.length - 1 = i + 1 := by omega
    rw [h2, h1]
    split
    · rename_i s hs
      exact ih (i + 1) (ws ++ [s]) (by simp [h])
    · rfl

/-- Witness for claim C6's theorem on the "A B C D" model. -/
theorem genLoop_uses_last_two_tokens_witness :
    ((["A", "B"] : List String).length = 0 + 2) ∧
      genLoop mABCD (fun _ => 0) 2 0 ["A", "B"] =
        genLoopSpec mABCD (fun _ => 0) 2 0 ["A", "B"] :=
  ⟨by decide, genLoop_uses_last_two_tokens mABCD (fun _ => 0) 2 0 ["A", "B"] (by decide)⟩

/-- Claim C1: for a model constructed with no filters, no transform and
casing unchanged, ingesting the single sentence "A B C D" and calling
`generate(10)` returns exactly "A B C D", for every value drawn from the
random source (each draw is taken modulo a collection of size 1). -/
theorem Markov.generate_roundtrip_ABCD (rng : Nat → Nat) :
    (Markov.new.pass_str "A B C D").1.generate 10 rng = some "A B C D" := by
  show mABCD.generate 10 rng = some "A B C D"
  have s1 : genLoop mABCD rng 8 0 ["A", "B"] = genLoop mABCD rng 7 1 ["A", "B", "C"] := by
    have h : genLoop mABCD rng (7 + 1) 0 ["A", "B"] =
        match mABCD.next "A" "B" (rng 1) with
        | some s => genLoop mABCD rng 7 1 (["A", "B"] ++ [s])
        | none => ["A", "B"] := genLoop_succ mABCD rng 7 0 ["A", "B"]
    rw [mABCD_next_AB] at h
    exact h
  have s2 : genLoop mABCD rng 7 1 ["A", "B", "C"] =
      genLoop mABCD rng 6 2 ["A", "B", "C", "D"] := by
    have h : genLoop mABCD rng (6 + 1) 1 ["A", "B", "C"] =
        match mABCD.next "B" "C" (rng 2) with
        | some s => genLoop mABCD rng 6 2 (["A", "B", "C"] ++ [s])
        | none => ["A", "B", "C"] := genLoop_succ mABCD rng 6 1 ["A", "B", "C"]
    rw [mABCD_next_BC] at h
    exact h
  have s3 : genLoop mABCD rng 6 2 ["A", "B", "C", "D"] = ["A", "B", "C", "D"] := by
    have h : genLoop mABCD rng (5 + 1) 2 ["A", "B", "C", "D"] =
        match mABCD.next "C" "D" (rng 3) with
        | some s => genLoop mABCD rng 5 3 (["A", "B", "C", "D"] ++ [s])
        | none => ["A", "B", "C", "D"] := genLoop_succ mABCD rng 5 2 ["A", "B", "C", "D"]
    rw [mABCD_next_CD] at h
    exact h
  have hw : mABCD.generateWords 10 rng = ["A", "B", "C", "D"] := by
    have h : mABCD.generateWords 10 rng =
        genLoop mABCD rng (i32AsUsize 8) 0
          [([("A", "B")].getD (rng 0 % 1) ("", "")).1,
           ([("A", "B")].getD (rng 0 % 1) ("", "")).2] := rfl
    rw [h, Nat.mod_one]
    show genLoop mABCD rng (i32AsUsize 8) 0 ["A", "B"] = ["A", "B", "C", "D"]
    rw [show i32AsUsize 8 = 8 from by decide]
    exact s1.trans (s2.trans s3)
  have hg : mABCD.generate 10 rng =
      if mABCD.seeds.length = 0 then none
      else some (String.intercalate " " (mABCD.generateWords 10 rng)) := rfl
  rw [hg, if_neg (show ¬(mABCD.seeds.length = 0) from by decide), hw]
  rfl

/-- Claim C10: when `generate` is called with `length < 2`, the loop
iteration count `(length - 2) as usize` is `(length - 2) mod 2^64`; on
the model ingested from "A B", `generate(1)` returns the 2-token string
"A B" rather than none or a string of at most 1 token. -/
theorem Markov.generate_underflow_length_one (rng : Nat → Nat) :
    (Markov.new.pass_str "A B").1.generate 1 rng = some "A B" ∧
      i32AsUsize (1 - 2) = 2 ^ 64 - 1 := by
  constructor
  · show mAB.generate 1 rng = some "A B"
    have hloop : genLoop mAB rng ((2 ^ 64 - 2) + 1) 0 ["A", "B"] = ["A", "B"] := by
      have h : genLoop mAB rng ((2 ^ 64 - 2) + 1) 0 ["A", "B"] =
          match mAB.next "A" "B" (rng 1) with
          | some s => genLoop mAB rng (2 ^ 64 - 2) 1 (["A", "B"] ++ [s])
          | none => ["A", "B"] := genLoop_succ mAB rng (2 ^ 64 - 2) 0 ["A", "B"]
      rw [mAB_next] at h
      exact h
    have hw : mAB.generateWords 1 rng = ["A", "B"] := by
      have h : mAB.generateWords 1 rng =
          genLoop mAB rng (i32AsUsize (1 - 2)) 0
            [([("A", "B")].getD (rng 0 % 1) ("", "")).1,
             ([("A", "B")].getD (rng 0 % 1) ("", "")).2] := rfl
      rw [h, Nat.mod_one]
      show genLoop mAB rng (i32AsUsize (1 - 2)) 0 ["A", "B"] = ["A", "B"]
      rw [show i32AsUsize (1 - 2) = (2 ^ 64 - 2) + 1 from by decide]
      exact hloop
    have hg : mAB.generate 1 rng =
        if mAB.seeds.length = 0 then none
        else some (String.intercalate " " (mAB.generateWords 1 rng)) := rfl
    rw [hg, if_neg (show ¬(mAB.seeds.length = 0) from by decide), hw]
    rfl
  · decide

/-- Claim C5: for every model and every `max_length ≥ 2` (within the
`i32` range of the source), whenever `generate` returns a string it is
the space-join of between 2 and `max_length` tokens. -/
theorem Markov.generate_length_bound (m : Markov) (len : Int) (rng : Nat → Nat)
    (h2 : 2 ≤ len) (h31 : len < 2 ^ 31) (hne : m.seeds ≠ []) :
    m.generate len rng =
        some (String.intercalate " " (m.generateWords len rng)) ∧
      2 ≤ (m.generateWords len rng).length ∧
      ((m.generateWords len rng).length : Int) ≤ len := by
  have hlen : ¬(m.seeds.length = 0) := by
    simpa [List.length_eq_zero] using hne
  refine ⟨by simp [Markov.generate, hlen], ?_, ?_⟩
  · have := genLoop_length_ge m rng (i32AsUsize (len - 2)) 0
      [(m.seeds.getD (rng 0 % m.seeds.length) ("", "")).1,
       (m.seeds.getD (rng 0 % m.seeds.length) ("", "")).2]
    simpa [Markov.generateWords] using this
  · have hle := genLoop_length_le m rng (i32AsUsize (len - 2)) 0
      [(m.seeds.getD (rng 0 % m.seeds.length) ("", "")).1,
       (m.seeds.getD (rng 0 % m.seeds.length) ("", "")).2]
    have hfuel : (i32AsUsize (len - 2) : Int) = len - 2 := by
      unfold i32AsUsize
      have hlt : len - 2 < (2 : Int) ^ 64 := by
        have : ((2 : Int) ^ 31) < (2 : Int) ^ 64 := by norm_num
        omega
      rw [Int.emod_eq_of_lt (by omega) hlt]
      exact Int.toNat_of_nonneg (by omega)
    have hwords : (m.generateWords len rng).length ≤ 2 + i32AsUsize (len - 2) := by
      simpa [Markov.generateWords] using hle
    have : ((m.generateWords len rng).length : Int) ≤ 2 + (i32AsUsize (len - 2) : Int) := by
      exact_mod_cast hwords
    omega

/-- Witness for claim C5's theorem on the "A B C D" model. -/
theorem Markov.generate_length_bound_witness :
    (2 ≤ (10 : Int)) ∧ ((10 : Int) < 2 ^ 31) ∧ mABCD.seeds ≠ [] ∧
      (mABCD.generate 10 (fun _ => 0) =
          some (String.intercalate " " (mABCD.generateWords 10 (fun _ => 0))) ∧
        2 ≤ (mABCD.generateWords 10 (fun _ => 0)).length ∧
        ((mABCD.generateWords 10 (fun _ => 0)).length : Int) ≤ 10) :=
  ⟨by norm_num, by norm_num, by decide,
    Markov.generate_length_bound mABCD 10 (fun _ => 0) (by norm_num) (by norm_num)
      (by decide)⟩

/-- Claim C2: for every sentence whose normalized token sequence has
length at least 2, `pass_str` returns true, appends exactly one seed
`(tokens[0], tokens[1])`, and for every index `i` from `0` to `length-3`
appends `tokens[i+2]` to the successor list of context
`(tokens[i], tokens[i+1])` — creating that entry with a single-element
list when absent. Stated for an arbitrary context `(a, b)`: the successor
list after ingestion is the old list extended, in index order, by exactly
the observed successors of `(a, b)` in the sentence. -/
theorem Markov.pass_str_ingests (m : Markov) (s : String) (a b : String)
    (h : 2 ≤ (m.normalize s).length) :
    (m.pass_str s).2 = true ∧
      (m.pass_str s).1.seeds =
        m.seeds ++ [((m.normalize s).getD 0 "", (m.normalize s).getD 1 "")] ∧
      succList (m.pass_str s).1.chains a b =
        succList m.chains a b ++
          (List.range ((m.normalize s).length - 2)).filterMap fun i =>
            if (m.normalize s).getD i "" = a ∧ (m.normalize s).getD (i + 1) "" = b
            then some ((m.normalize s).getD (i + 2) "") else none := by
  have hn : ¬((m.normalize s).length < 2) := by omega
  simp only [Markov.pass_str]
  rw [if_neg hn]
  refine ⟨rfl, rfl, ?_⟩
  show succList ((List.range ((m.normalize s).length - 2)).foldl
      (fun ch i =>
        add ch ((m.normalize s).getD i "") ((m.normalize s).getD (i + 1) "")
          ((m.normalize s).getD (i + 2) "")) m.chains) a b = _
  rw [foldl_range_add, succList_foldl_add, List.filterMap_map]
  rfl

/-- Witness for claim C2's theorem at the sentence "a b a b c" and context ("a", "b"). -/
theorem Markov.pass_str_ingests_witness :
    2 ≤ (Markov.new.normalize "a b a b c").length ∧
      ((Markov.new.pass_str "a b a b c").2 = true ∧
        (Markov.new.pass_str "a b a b c").1.seeds =
          Markov.new.seeds ++
            [((Markov.new.normalize "a b a b c").getD 0 "",
              (Markov.new.normalize "a b a b c").getD 1 "")] ∧
        succList (Markov.new.pass_str "a b a b c").1.chains "a" "b" =
          succList Markov.new.chains "a" "b" ++
            (List.range ((Markov.new.normalize "a b a b c").length - 2)).filterMap
              fun i =>
                if (Markov.new.normalize "a b a b c").getD i "" = "a" ∧
                    (Markov.new.normalize "a b a b c").getD (i + 1) "" = "b"
                then some ((Markov.new.normalize "a b a b c").getD (i + 2) "")
                else none) :=
  ⟨by decide, Markov.pass_str_ingests Markov.new "a b a b c" "a" "b" (by decide)⟩

/-- Claim C4: in every model reachable from the empty model, at most one
chain entry exists per distinct context; `add` appends an observed
successor to the existing entry's list when the context is present, and
creates a new entry (leaving all other contexts untouched) only when the
context is absent. -/
theorem Markov.chain_context_unique (m : Markov) (a b w : String)
    (h : Reachable m) :
    (m.chains.filter fun c => decide (c.1 = a ∧ c.2.1 = b)).length ≤ 1 ∧
      succList (add m.chains a b w) a b = succList m.chains a b ++ [w] ∧
      ctxs (add m.chains a b w) =
        (if has_chain m.chains a b then ctxs m.chains
         else ctxs m.chains ++ [(a, b)]) := by
  refine ⟨length_filter_ctx_le_one _ _ _ (reachable_nodup_ctxs m h), ?_, ?_⟩
  · have := succList_add m.chains a b w a b
    simpa using this
  · unfold add
    by_cases hc : has_chain m.chains a b = true
    · rw [if_pos (by simp [hc]), if_pos (by simp [hc]), ctxs_add_to_chain]
    · have hf : has_chain m.chains a b = false := by simpa using hc
      rw [if_neg (by simp [hf]), if_neg (by simp [hf]), ctxs_append]
      simp [ctxs]

/-- Witness for claim C4's theorem on the "A B C D" model. -/
theorem Markov.chain_context_unique_witness :
    Reachable mABCD ∧
      ((mABCD.chains.filter fun c => decide (c.1 = "A" ∧ c.2.1 = "B")).length ≤ 1 ∧
        succList (add mABCD.chains "A" "B" "X") "A" "B" =
          succList mABCD.chains "A" "B" ++ ["X"] ∧
        ctxs (add mABCD.chains "A" "B" "X") =
          (if has_chain mABCD.chains "A" "B" then ctxs mABCD.chains
           else ctxs mABCD.chains ++ [("A", "B")])) :=
  ⟨Reachable.pass_str Markov.new "A B C D" Reachable.new,
    Markov.chain_context_unique mABCD "A" "B" "X"
      (Reachable.pass_str Markov.new "A B C D" Reachable.new)⟩

/-- Claim C9: in every model reachable by ingestion from the empty model,
every chain entry's successor list is non-empty, so the modulus
`v3.len()` used by `Markov::next` (`random % v3.len()`) is never zero and
the index it produces is always in bounds. -/
theorem Markov.next_modulus_pos (m : Markov) (c : ChainEntry) (r : Nat)
    (h : Reachable m) (hc : c ∈ m.chains) :
    0 < c.2.2.length ∧ r % c.2.2.length < c.2.2.length := by
  have hne := reachable_chains_nonempty m h c hc
  have hpos : 0 < c.2.2.length := List.length_pos.mpr hne
  exact ⟨hpos, Nat.mod_lt _ hpos⟩

/-- Witness for claim C9's theorem on the "A B C D" model. -/
theorem Markov.next_modulus_pos_witness :
    Reachable mABCD ∧ (("A", "B", ["C"]) : ChainEntry) ∈ mABCD.chains ∧
      (0 < (("A", "B", ["C"]) : ChainEntry).2.2.length ∧
        5 % (("A", "B", ["C"]) : ChainEntry).2.2.length <
          (("A", "B", ["C"]) : ChainEntry).2.2.length) :=
  ⟨Reachable.pass_str Markov.new "A B C D" Reachable.new, by decide,
    Markov.next_modulus_pos mABCD ("A", "B", ["C"]) 5
      (Reachable.pass_str Markov.new "A B C D" Reachable.new) (by decide)⟩
